import Mathlib

/-!
Verification of the ansi-three repository: a shallow embedding of the
container codec, seek index, palette generation, frame emitter, encoder
pipeline bookkeeping and player seek logic, together with theorems
settling the specification claims.

Conventions of the embedding:
* machine bytes are `Nat` values below 256; byte streams are `List Nat`;
* `u64` / `i64` arithmetic is modelled with explicit wrap-around
  (`% 2^64`, `wrap64`), matching two's-complement wrapping semantics;
* fallible reads return `Option` (with `none` for an I/O error / panic);
* each definition mirrors one function of the Rust source, named after it.
-/

namespace AnsiThree

/-! ## Byte-level primitives (byteorder little-endian readers/writers) -/

/-- Little-endian byte serialization of a value into `n` bytes, as
`byteorder::WriteBytesExt::write_u64::<LittleEndian>` does for `n = 8`. -/
def leBytes : Nat → Nat → List Nat
  | 0, _ => []
  | n + 1, v => v % 256 :: leBytes n (v / 256)

/-- Little-endian read of `n` bytes from a stream, as
`byteorder::ReadBytesExt::read_u64::<LittleEndian>`; `none` models
`UnexpectedEof`. -/
def readLE : Nat → List Nat → Option (Nat × List Nat)
  | 0, l => some (0, l)
  | _ + 1, [] => none
  | n + 1, b :: l => (readLE n l).map (fun p => (b + 256 * p.1, p.2))

theorem leBytes_length (n v : Nat) : (leBytes n v).length = n := by
  induction n generalizing v with
  | zero => rfl
  | succ n ih => simp [leBytes, ih]

theorem readLE_leBytes (n : Nat) (v : Nat) (h : v < 256 ^ n) (r : List Nat) :
    readLE n (leBytes n v ++ r) = some (v, r) := by
  induction n generalizing v with
  | zero =>
    have : v = 0 := Nat.lt_one_iff.mp (by simpa using h)
    simp [leBytes, readLE, this]
  | succ n ih =>
    have hv : v / 256 < 256 ^ n := by
      rw [Nat.div_lt_iff_lt_mul (by norm_num)]
      calc v < 256 ^ (n + 1) := h
        _ = 256 ^ n * 256 := by ring
    simp [leBytes, readLE, ih _ hv, Nat.mod_add_div]

/-- Reads `n` raw bytes off the front of the stream
(`Read::read_exact` into an `n`-byte buffer); `none` models `UnexpectedEof`. -/
def readN (n : Nat) (l : List Nat) : Option (List Nat × List Nat) :=
  if n ≤ l.length then some (l.take n, l.drop n) else none

theorem readN_append (l r : List Nat) : readN l.length (l ++ r) = some (l, r) := by
  simp [readN]

/-! ## i64 wrapping arithmetic -/

/-- Wraps an integer into the `i64` range `[-2^63, 2^63)`, the
two's-complement result of Rust release-mode wrapping arithmetic. -/
def wrap64 (x : Int) : Int :=
  (x + 2 ^ 63) % 2 ^ 64 - 2 ^ 63

/-- `x` is representable as an `i64`. -/
def inI64 (x : Int) : Prop := -2 ^ 63 ≤ x ∧ x < 2 ^ 63

instance (x : Int) : Decidable (inI64 x) := by unfold inI64; infer_instance

theorem wrap64_eq_self {x : Int} (h : inI64 x) : wrap64 x = x := by
  obtain ⟨h1, h2⟩ := h
  unfold wrap64
  rw [Int.emod_eq_of_lt (by omega) (by norm_num; omega)]
  omega

theorem wrap64_inI64 (x : Int) : inI64 (wrap64 x) := by
  unfold wrap64 inI64
  have h1 : 0 ≤ (x + 2 ^ 63) % 2 ^ 64 := Int.emod_nonneg _ (by norm_num)
  have h2 : (x + 2 ^ 63) % 2 ^ 64 < 2 ^ 64 := Int.emod_lt_of_pos _ (by norm_num)
  omega

theorem wrap64_emod (x : Int) : wrap64 x % 2 ^ 64 = x % 2 ^ 64 := by
  unfold wrap64
  rw [Int.sub_emod, Int.emod_emod_of_dvd _ dvd_rfl, ← Int.sub_emod,
    add_sub_cancel_right]

theorem wrap64_congr {x y : Int} (h : x % 2 ^ 64 = y % 2 ^ 64) :
    wrap64 x = wrap64 y := by
  unfold wrap64
  have hx : (x + 2 ^ 63) % 2 ^ 64 = (y + 2 ^ 63) % 2 ^ 64 := by
    rw [Int.add_emod, h, ← Int.add_emod]
  rw [hx]

theorem wrap64_add_left (x y : Int) : wrap64 (wrap64 x + y) = wrap64 (x + y) := by
  apply wrap64_congr
  have := wrap64_emod x
  omega

theorem wrap64_add_right (x y : Int) : wrap64 (x + wrap64 y) = wrap64 (x + y) := by
  apply wrap64_congr
  have := wrap64_emod y
  omega

/-! ## Zig-zag varints (`integer_encoding` crate, `VarInt for i64`) -/

/-- Zig-zag mapping of an `i64` onto a `u64`
(`(n << 1) ^ (n >> 63)` in the `integer_encoding` crate). -/
def zigzag (x : Int) : Nat :=
  if 0 ≤ x then (2 * x).toNat else (2 * (-x) - 1).toNat

/-- Inverse zig-zag mapping, from `u64` back to `i64`. -/
def unzigzag (n : Nat) : Int :=
  if n % 2 = 0 then (n / 2 : Nat) else -((n / 2 : Nat) : Int) - 1

theorem unzigzag_zigzag (x : Int) : unzigzag (zigzag x) = x := by
  unfold zigzag unzigzag
  by_cases h : 0 ≤ x
  · simp only [if_pos h]
    have h2 : (2 * x).toNat = 2 * x.toNat := by omega
    rw [h2, if_pos (by omega : 2 * x.toNat % 2 = 0)]
    omega
  · simp only [if_neg h]
    push_neg at h
    have h2 : (2 * (-x) - 1).toNat = 2 * (-x).toNat - 1 := by omega
    have h3 : 1 ≤ (-x).toNat := by omega
    rw [h2]
    have hodd : (2 * (-x).toNat - 1) % 2 = 1 := by omega
    rw [if_neg (by omega)]
    have hdiv : (2 * (-x).toNat - 1) / 2 = (-x).toNat - 1 := by omega
    rw [hdiv]
    omega

/-- LEB128 encoding of an unsigned value: 7 bits per byte, little-endian
groups, the high bit of a byte marking continuation
(`integer_encoding::VarIntWriter::write_varint`). -/
def lebEncode (v : Nat) : List Nat :=
  if h : v < 128 then [v]
  else (v % 128 + 128) :: lebEncode (v / 128)
termination_by v
decreasing_by
  exact Nat.div_lt_self (by omega) (by norm_num)

/-- LEB128 decoding from a byte stream
(`integer_encoding::VarIntReader::read_varint`); `none` models
`UnexpectedEof`. -/
def lebDecode : List Nat → Option (Nat × List Nat)
  | [] => none
  | b :: l =>
    if b < 128 then some (b, l)
    else (lebDecode l).map (fun p => (b % 128 + 128 * p.1, p.2))

theorem lebDecode_lebEncode (v : Nat) (r : List Nat) :
    lebDecode (lebEncode v ++ r) = some (v, r) := by
  induction v using Nat.strong_induction_on with
  | _ v ih =>
    by_cases h : v < 128
    · rw [lebEncode, dif_pos h]
      simp [lebDecode, h]
    · rw [lebEncode, dif_neg h]
      have hrec := ih (v / 128) (Nat.div_lt_self (by omega) (by norm_num))
      simp only [List.cons_append, List.append_eq, lebDecode,
        if_neg (by omega : ¬ v % 128 + 128 < 128)]
      rw [hrec]
      simp [Nat.mod_add_div]

/-- Writes one `i64` as a zig-zag LEB128 varint
(`out.write_varint(x)` for `x : i64`). -/
def varintEncode (x : Int) : List Nat := lebEncode (zigzag x)

/-- Reads one `i64` zig-zag LEB128 varint
(`input.read_varint()` for `i64`). -/
def varintDecode (l : List Nat) : Option (Int × List Nat) :=
  (lebDecode l).map (fun p => (unzigzag p.1, p.2))

theorem varintDecode_varintEncode (x : Int) (r : List Nat) :
    varintDecode (varintEncode x ++ r) = some (x, r) := by
  unfold varintEncode varintDecode
  rw [lebDecode_lebEncode]
  simp [unzigzag_zigzag]

/-! ## Delta-of-delta seek-stream codec (`container/src/seek.rs`) -/

/-- A seek entry: presentation timestamp (µs) and byte offset from the
start of the packet region (`container::seek::SeekEntry`). -/
structure SeekEntry where
  ts : Int
  location : Int
  deriving DecidableEq, Repr

/-- Tail loop of `delta_encode`: for each value, emit the varint of the
wrapped delta-of-delta and update `(prev_val, prev_delta)`. -/
def deltaEncodeGo : Int → Int → List Int → List Nat
  | _, _, [] => []
  | prevVal, prevDelta, v :: rest =>
    let delta := wrap64 (v - prevVal)
    let deltaOfDelta := wrap64 (delta - prevDelta)
    varintEncode deltaOfDelta ++ deltaEncodeGo v delta rest

/-- `container::seek::delta_encode`. The Rust function `unwrap`s the
first element of the iterator; `none` models that panic on an empty
input. -/
def delta_encode : List Int → Option (List Nat)
  | [] => none
  | x :: xs => some (varintEncode x ++ deltaEncodeGo x 0 xs)

/-- Decode loop of `delta_decode`: reads `n` delta-of-delta varints,
accumulating `prev_delta` and `prev_val` with wrapping adds. -/
def deltaDecodeGo : Nat → Int → Int → List Nat → Option (List Int)
  | 0, _, _, _ => some []
  | n + 1, prevVal, prevDelta, l =>
    match varintDecode l with
    | none => none
    | some (dd, rest) =>
      let prevDelta' := wrap64 (prevDelta + dd)
      let prevVal' := wrap64 (prevVal + prevDelta')
      (deltaDecodeGo n prevVal' prevDelta' rest).map (fun vs => prevVal' :: vs)

/-- `container::seek::delta_decode`. A `len` of `0` underflows the
`0..(len - 1)` loop bound in Rust (a `usize` underflow panic), modelled
as `none`. -/
def delta_decode (input : List Nat) (len : Nat) : Option (List Int) :=
  if len = 0 then none
  else
    match varintDecode input with
    | none => none
    | some (v, rest) =>
      (deltaDecodeGo (len - 1) v 0 rest).map (fun vs => v :: vs)

theorem deltaDecodeGo_deltaEncodeGo (xs : List Int) (prevVal prevDelta : Int)
    (hprev : inI64 prevVal) (hd : inI64 prevDelta)
    (hxs : ∀ v ∈ xs, inI64 v) :
    deltaDecodeGo xs.length prevVal prevDelta (deltaEncodeGo prevVal prevDelta xs) =
      some xs := by
  induction xs generalizing prevVal prevDelta with
  | nil => rfl
  | cons v rest ih =>
    have hv : inI64 v := hxs v (List.mem_cons_self _ _)
    simp only [deltaEncodeGo, List.length_cons, deltaDecodeGo]
    rw [varintDecode_varintEncode]
    have hdelta : wrap64 (prevDelta + wrap64 (wrap64 (v - prevVal) - prevDelta)) =
        wrap64 (v - prevVal) := by
      rw [wrap64_add_right]
      have h1 : prevDelta + (wrap64 (v - prevVal) - prevDelta) = wrap64 (v - prevVal) := by
        ring
      rw [h1, wrap64_eq_self (wrap64_inI64 _)]
    simp only [hdelta]
    have hval : wrap64 (prevVal + wrap64 (v - prevVal)) = v := by
      rw [wrap64_add_right]
      have h2 : prevVal + (v - prevVal) = v := by ring
      rw [h2, wrap64_eq_self hv]
    simp only [hval]
    rw [ih v (wrap64 (v - prevVal)) hv (wrap64_inI64 _)
      (fun w hw => hxs w (List.mem_cons_of_mem _ hw))]
    rfl

/-- C2: delta-of-delta round-trip. For every nonempty sequence of `i64`
values, `delta_decode` applied to the bytes of `delta_encode` with `len`
the sequence length returns the sequence. -/
theorem delta_roundtrip (xs : List Int) (hne : xs ≠ [])
    (hrange : ∀ v ∈ xs, inI64 v) :
    (delta_encode xs).bind (fun bs => delta_decode bs xs.length) = some xs := by
  match xs, hne with
  | x :: rest, _ =>
    simp only [delta_encode, Option.bind_some, Option.some_bind, delta_decode,
      List.length_cons]
    rw [if_neg (Nat.succ_ne_zero _)]
    rw [varintDecode_varintEncode]
    have hx : inI64 x := hrange x (List.mem_cons_self _ _)
    simp only [Nat.add_sub_cancel]
    rw [deltaDecodeGo_deltaEncodeGo rest x 0 hx (by unfold inI64; norm_num)
      (fun w hw => hrange w (List.mem_cons_of_mem _ hw))]
    rfl

/-- Witness for C2 at the concrete sequence `[0, 1312, 2624, 3936]`
(spec scenario 2). -/
theorem delta_roundtrip_witness :
    (delta_encode [0, 1312, 2624, 3936]).bind
      (fun bs => delta_decode bs 4) = some [0, 1312, 2624, 3936] := by
  have h := delta_roundtrip [0, 1312, 2624, 3936] (by decide) (by decide)
  simpa using h

/-! ## Side data (`container/src/side_data.rs`)

A `Tag` is a `[u8; 4]` of printable ASCII. Its derived Rust `Ord` is
lexicographic on the bytes, which on fixed-length arrays coincides with
the numeric order of the big-endian 32-bit value; the tag is therefore
modelled as that `Nat` value (below `2^32`). -/

/-- `side_data::COMPRESSION_METHOD`, the tag `"CMPM"`. -/
def COMPRESSION_METHOD : Nat := ((67 * 256 + 77) * 256 + 80) * 256 + 77

/-- `side_data::DECOMPRESSED_LEN`, the tag `"DCLE"`. -/
def DECOMPRESSED_LEN : Nat := ((68 * 256 + 67) * 256 + 76) * 256 + 69

/-- The four raw bytes of a tag (`out.write_all(&key.inner)`). -/
def beBytes4 (t : Nat) : List Nat :=
  [t / 2 ^ 24 % 256, t / 2 ^ 16 % 256, t / 2 ^ 8 % 256, t % 256]

/-- Reads the four raw bytes of a tag (`input.read_exact(&mut tag)`). -/
def readTag : List Nat → Option (Nat × List Nat)
  | b0 :: b1 :: b2 :: b3 :: l => some (((b0 * 256 + b1) * 256 + b2) * 256 + b3, l)
  | _ => none

theorem readTag_beBytes4 (t : Nat) (h : t < 2 ^ 32) (r : List Nat) :
    readTag (beBytes4 t ++ r) = some (t, r) := by
  simp only [beBytes4, List.cons_append, List.nil_append, readTag,
    Option.some.injEq, Prod.mk.injEq]
  refine ⟨?_, trivial⟩
  omega

/-- Side data: an ordered map from tags to byte values, backed by a
sorted vector (`litemap::LiteMap<Tag, ArrayVec<u8, 256>>`). The list is
kept sorted by tag, `LiteMap`'s invariant. -/
structure SideData where
  inner : List (Nat × List Nat)
  deriving DecidableEq, Repr

/-- `LiteMap::insert`: binary-searches the sorted vector and either
replaces the value at an existing key or inserts at the position that
keeps the keys sorted. Functional equivalent on the backing list. -/
def litemapInsert (k : Nat) (v : List Nat) :
    List (Nat × List Nat) → List (Nat × List Nat)
  | [] => [(k, v)]
  | (k', v') :: rest =>
    if k < k' then (k, v) :: (k', v') :: rest
    else if k = k' then (k, v) :: rest
    else (k', v') :: litemapInsert k v rest

/-- `LiteMap::get`: lookup by key. -/
def litemapGet (k : Nat) : List (Nat × List Nat) → Option (List Nat)
  | [] => none
  | (k', v') :: rest => if k = k' then some v' else litemapGet k rest

/-- One entry on the wire: 4 tag bytes, a `u8` length marker, the value
bytes (the loop body of `SideData::encode_into`). -/
def sideDataEncodeEntry : Nat × List Nat → List Nat
  | (t, v) => beBytes4 t ++ [v.length % 256] ++ v

/-- `SideData::encode_into`: a `u8` entry count, then each entry in the
order of the backing sorted vector. -/
def SideData.encode_into (sd : SideData) : List Nat :=
  sd.inner.length % 256 :: (sd.inner.map sideDataEncodeEntry).flatten

/-- Decode loop of `SideData::decode_from`: reads `n` entries, inserting
each into the map. -/
def sideDataDecodeGo :
    Nat → List (Nat × List Nat) → List Nat →
      Option (List (Nat × List Nat) × List Nat)
  | 0, acc, l => some (acc, l)
  | n + 1, acc, l =>
    match readTag l with
    | none => none
    | some (t, l1) =>
      match l1 with
      | [] => none
      | marker :: l2 =>
        match readN marker l2 with
        | none => none
        | some (v, l3) => sideDataDecodeGo n (litemapInsert t v acc) l3

/-- `SideData::decode_from`. -/
def SideData.decode_from : List Nat → Option (SideData × List Nat)
  | [] => none
  | n :: l => (sideDataDecodeGo n [] l).map (fun p => (⟨p.1⟩, p.2))

/-- Well-formedness of a side-data map as the Rust type maintains it:
at most 255 entries, keys strictly sorted (the `LiteMap` invariant),
each tag a 4-byte value and each value at most 255 bytes. -/
def SideData.WF (sd : SideData) : Prop :=
  sd.inner.length ≤ 255 ∧
  sd.inner.Pairwise (fun a b => a.1 < b.1) ∧
  ∀ e ∈ sd.inner, e.1 < 2 ^ 32 ∧ e.2.length ≤ 255

instance (sd : SideData) : Decidable sd.WF := by
  unfold SideData.WF; infer_instance

theorem litemapInsert_append (m : List (Nat × List Nat)) (k : Nat) (v : List Nat)
    (h : ∀ e ∈ m, e.1 < k) : litemapInsert k v m = m ++ [(k, v)] := by
  induction m with
  | nil => rfl
  | cons e rest ih =>
    obtain ⟨k', v'⟩ := e
    have hk : k' < k := h (k', v') (List.mem_cons_self _ _)
    simp only [litemapInsert, if_neg (by omega : ¬ k < k'),
      if_neg (by omega : ¬ k = k'), List.cons_append, List.cons.injEq, true_and]
    exact ih (fun e he => h e (List.mem_cons_of_mem _ he))

theorem sideDataDecodeGo_encode (entries : List (Nat × List Nat))
    (hs : entries.Pairwise (fun a b => a.1 < b.1))
    (hwf : ∀ e ∈ entries, e.1 < 2 ^ 32 ∧ e.2.length ≤ 255)
    (acc : List (Nat × List Nat)) (r : List Nat)
    (hacc : ∀ e ∈ acc, ∀ f ∈ entries, e.1 < f.1) :
    sideDataDecodeGo entries.length acc
      ((entries.map sideDataEncodeEntry).flatten ++ r) = some (acc ++ entries, r) := by
  induction entries generalizing acc with
  | nil => simp [sideDataDecodeGo]
  | cons e rest ih =>
    obtain ⟨t, v⟩ := e
    obtain ⟨ht, hv⟩ := hwf (t, v) (List.mem_cons_self _ _)
    have hv' : v.length ≤ 255 := hv
    have hlen : v.length % 256 = v.length := Nat.mod_eq_of_lt (by omega)
    have hins : litemapInsert t v acc = acc ++ [(t, v)] :=
      litemapInsert_append acc t v
        (fun e he => hacc e he (t, v) (List.mem_cons_self _ _))
    have hs' := (List.pairwise_cons.mp hs).2
    have hhead := (List.pairwise_cons.mp hs).1
    simp only [List.map_cons, List.flatten_cons, List.length_cons,
      sideDataEncodeEntry, List.append_assoc, sideDataDecodeGo,
      readTag_beBytes4 t ht, List.cons_append, List.nil_append, hlen,
      readN_append, hins]
    rw [ih hs' (fun f hf => hwf f (List.mem_cons_of_mem _ hf)) (acc ++ [(t, v)])
      (by
        intro e he f hf
        rcases List.mem_append.mp he with he' | he'
        · exact hacc e he' f (List.mem_cons_of_mem _ hf)
        · have : e = (t, v) := by simpa using he'
          subst this
          exact hhead f hf)]
    simp

/-- Round-trip of a well-formed side-data map through the wire format. -/
theorem sideData_roundtrip (sd : SideData) (h : sd.WF) (r : List Nat) :
    SideData.decode_from (sd.encode_into ++ r) = some (sd, r) := by
  obtain ⟨inner⟩ := sd
  obtain ⟨hlen, hs, hwf⟩ := h
  have hlen' : inner.length ≤ 255 := hlen
  have hs' : inner.Pairwise (fun a b => a.1 < b.1) := hs
  have hwf' : ∀ e ∈ inner, e.1 < 2 ^ 32 ∧ e.2.length ≤ 255 := hwf
  have hmod : inner.length % 256 = inner.length := Nat.mod_eq_of_lt (by omega)
  simp only [SideData.encode_into, List.cons_append, SideData.decode_from, hmod,
    sideDataDecodeGo_encode inner hs' hwf' [] r (by intro e he; cases he)]
  simp

/-! ## Packet codec (`container/src/lib.rs`) -/

/-- `container::PacketDataType`. -/
inductive PacketDataType
  | video
  | audio
  | subtitle
  | unknown
  | invalid
  deriving DecidableEq, Repr

/-- The `#[repr(u8)]` discriminant of a `PacketDataType`
(`self.data_type as u8`). -/
def PacketDataType.toByte : PacketDataType → Nat
  | .video => 0
  | .audio => 1
  | .subtitle => 2
  | .unknown => 3
  | .invalid => 255

/-- `TryFrom<u8> for PacketDataType`; `none` models the `InvalidData`
error on an unknown discriminant. -/
def PacketDataType.tryFrom : Nat → Option PacketDataType
  | 0 => some .video
  | 1 => some .audio
  | 2 => some .subtitle
  | 3 => some .unknown
  | 255 => some .invalid
  | _ => none

theorem tryFrom_toByte (d : PacketDataType) :
    PacketDataType.tryFrom d.toByte = some d := by
  cases d <;> rfl

/-- `container::Packet`. `timestamp` and `duration` model
`std::time::Duration` as a count of nanoseconds. -/
structure Packet where
  stream : Nat
  packet_idx : Nat
  timestamp : Nat
  duration : Nat
  side_data : SideData
  data_type : PacketDataType
  data_len : Nat
  deriving DecidableEq, Repr

/-- `Packet::encode_into`: stream byte, `u64` packet index, `u64`
microsecond timestamp and duration (`as_micros() as u64`), the side-data
block, the data-type byte and the `u64` payload length, all
little-endian. -/
def Packet.encode_into (p : Packet) : List Nat :=
  p.stream % 256 ::
    (leBytes 8 p.packet_idx ++
      leBytes 8 (p.timestamp / 1000 % 2 ^ 64) ++
      leBytes 8 (p.duration / 1000 % 2 ^ 64) ++
      p.side_data.encode_into ++
      p.data_type.toByte ::
      leBytes 8 p.data_len)

/-- `Packet::decode_from`; `none` models an I/O or `InvalidData` error. -/
def Packet.decode_from (l : List Nat) : Option (Packet × List Nat) :=
  match l with
  | [] => none
  | stream :: l0 =>
    match readLE 8 l0 with
    | none => none
    | some (packet_idx, l1) =>
      match readLE 8 l1 with
      | none => none
      | some (timestamp, l2) =>
        match readLE 8 l2 with
        | none => none
        | some (duration, l3) =>
          match SideData.decode_from l3 with
          | none => none
          | some (side_data, l4) =>
            match l4 with
            | [] => none
            | dataTypeByte :: l5 =>
              match PacketDataType.tryFrom dataTypeByte with
              | none => none
              | some data_type =>
                match readLE 8 l5 with
                | none => none
                | some (data_len, l6) =>
                  some
                    ({ stream, packet_idx, timestamp := timestamp * 1000,
                       duration := duration * 1000, side_data, data_type,
                       data_len }, l6)

/-- Well-formedness of a packet as the claim demands: fields within
their Rust integer ranges, timestamp and duration whole microseconds
fitting in a `u64`, and a well-formed side-data map. -/
def Packet.WF (p : Packet) : Prop :=
  p.stream < 256 ∧ p.packet_idx < 2 ^ 64 ∧
  p.timestamp % 1000 = 0 ∧ p.timestamp / 1000 < 2 ^ 64 ∧
  p.duration % 1000 = 0 ∧ p.duration / 1000 < 2 ^ 64 ∧
  p.data_len < 2 ^ 64 ∧ p.side_data.WF

instance (p : Packet) : Decidable p.WF := by
  unfold Packet.WF; infer_instance

theorem pow_256_eight : (256 : Nat) ^ 8 = 2 ^ 64 := by norm_num

/-- C3: packet header round-trip. For every well-formed packet,
decoding the bytes written by `encode_into` returns the packet (side
data included, in the order of the underlying sorted map) and leaves the
rest of the stream untouched. -/
theorem packet_roundtrip (p : Packet) (h : p.WF) (r : List Nat) :
    Packet.decode_from (p.encode_into ++ r) = some (p, r) := by
  obtain ⟨h1, h2, h3, h4, h5, h6, h7, h8⟩ := h
  have hb2 : p.packet_idx < 256 ^ 8 := by rw [pow_256_eight]; exact h2
  have hb4 : p.timestamp / 1000 < 256 ^ 8 := by rw [pow_256_eight]; exact h4
  have hb6 : p.duration / 1000 < 256 ^ 8 := by rw [pow_256_eight]; exact h6
  have hb7 : p.data_len < 256 ^ 8 := by rw [pow_256_eight]; exact h7
  have htime : p.timestamp / 1000 * 1000 = p.timestamp :=
    Nat.div_mul_cancel (Nat.dvd_of_mod_eq_zero h3)
  have hdur : p.duration / 1000 * 1000 = p.duration :=
    Nat.div_mul_cancel (Nat.dvd_of_mod_eq_zero h5)
  simp only [Packet.encode_into, List.cons_append, List.append_assoc,
    Packet.decode_from, Nat.mod_eq_of_lt h1, Nat.mod_eq_of_lt h4,
    Nat.mod_eq_of_lt h6, readLE_leBytes 8 p.packet_idx hb2,
    readLE_leBytes 8 (p.timestamp / 1000) hb4,
    readLE_leBytes 8 (p.duration / 1000) hb6,
    sideData_roundtrip p.side_data h8, tryFrom_toByte,
    readLE_leBytes 8 p.data_len hb7, htime, hdur]

/-- Witness for C3: a concrete packet with two side-data entries
round-trips. -/
theorem packet_roundtrip_witness :
    Packet.decode_from
        (Packet.encode_into
            { stream := 2, packet_idx := 7, timestamp := 5000, duration := 1000,
              side_data := ⟨[(COMPRESSION_METHOD, [1]),
                (DECOMPRESSED_LEN, [64, 0, 0, 0, 0, 0, 0, 0])]⟩,
              data_type := .video, data_len := 64 } ++ [9, 9]) =
      some
        ({ stream := 2, packet_idx := 7, timestamp := 5000, duration := 1000,
           side_data := ⟨[(COMPRESSION_METHOD, [1]),
             (DECOMPRESSED_LEN, [64, 0, 0, 0, 0, 0, 0, 0])]⟩,
           data_type := .video, data_len := 64 }, [9, 9]) :=
  packet_roundtrip _ (by decide) [9, 9]

/-! ## C9: wire order of side-data entries -/

/-- Builds a `SideData` by a sequence of `LiteMap::insert` calls, in the
given insertion order. -/
def sideDataFromInserts (l : List (Nat × List Nat)) : SideData :=
  ⟨l.foldl (fun m e => litemapInsert e.1 e.2 m) []⟩

/-- C9 counterexample: inserting `DCLE` and then `CMPM`, the encoded
stream carries the `CMPM` entry first — the sorted-map order, not the
insertion order (`CMPM` < `DCLE` lexicographically). -/
theorem sideData_wire_order_counterexample :
    SideData.encode_into (sideDataFromInserts
        [(DECOMPRESSED_LEN, [1]), (COMPRESSION_METHOD, [2])]) =
      2 :: (beBytes4 COMPRESSION_METHOD ++ [1, 2] ++
        (beBytes4 DECOMPRESSED_LEN ++ [1, 1])) ∧
    2 :: (beBytes4 COMPRESSION_METHOD ++ [1, 2] ++
        (beBytes4 DECOMPRESSED_LEN ++ [1, 1])) ≠
      2 :: (beBytes4 DECOMPRESSED_LEN ++ [1, 1] ++
        (beBytes4 COMPRESSION_METHOD ++ [1, 2])) := by
  constructor
  · rfl
  · decide

theorem mem_litemapInsert (k : Nat) (v : List Nat)
    (m : List (Nat × List Nat)) :
    ∀ e ∈ litemapInsert k v m, e = (k, v) ∨ e ∈ m := by
  induction m with
  | nil =>
    intro e he
    exact Or.inl (by simpa [litemapInsert] using he)
  | cons f rest ih =>
    obtain ⟨k', v'⟩ := f
    intro e he
    by_cases h1 : k < k'
    · simp only [litemapInsert, if_pos h1] at he
      rcases List.mem_cons.mp he with h | h
      · exact Or.inl h
      · exact Or.inr h
    · by_cases h2 : k = k'
      · simp only [litemapInsert, if_neg h1, if_pos h2] at he
        rcases List.mem_cons.mp he with h | h
        · exact Or.inl h
        · exact Or.inr (List.mem_cons_of_mem _ h)
      · simp only [litemapInsert, if_neg h1, if_neg h2] at he
        rcases List.mem_cons.mp he with h | h
        · exact Or.inr (by simp [h])
        · rcases ih e h with h' | h'
          · exact Or.inl h'
          · exact Or.inr (List.mem_cons_of_mem _ h')

theorem litemapInsert_pairwise (k : Nat) (v : List Nat) :
    ∀ m : List (Nat × List Nat), m.Pairwise (fun a b => a.1 < b.1) →
      (litemapInsert k v m).Pairwise (fun a b => a.1 < b.1) := by
  intro m
  induction m with
  | nil =>
    intro _
    simp [litemapInsert]
  | cons f rest ih =>
    obtain ⟨k', v'⟩ := f
    intro h
    obtain ⟨hhead, hrest⟩ := List.pairwise_cons.mp h
    by_cases h1 : k < k'
    · simp only [litemapInsert, if_pos h1]
      refine List.pairwise_cons.mpr ⟨?_, h⟩
      intro e he
      rcases List.mem_cons.mp he with he' | he'
      · subst he'
        exact h1
      · have h3 := hhead e he'
        exact lt_trans h1 h3
    · by_cases h2 : k = k'
      · simp only [litemapInsert, if_neg h1, if_pos h2]
        refine List.pairwise_cons.mpr ⟨?_, hrest⟩
        intro e he
        have h3 := hhead e he
        subst h2
        exact h3
      · simp only [litemapInsert, if_neg h1, if_neg h2]
        refine List.pairwise_cons.mpr ⟨?_, ih hrest⟩
        intro e he
        rcases mem_litemapInsert k v rest e he with he' | he'
        · subst he'
          show k' < k
          omega
        · exact hhead e he'

/-- C9 amended: for every insertion sequence, the entries of the
resulting map — the exact order in which `SideData::encode_into` writes
them to the wire — are in strictly ascending tag order, not insertion
order. -/
theorem sideData_wire_order_sorted (inserts : List (Nat × List Nat)) :
    (sideDataFromInserts inserts).inner.Pairwise (fun a b => a.1 < b.1) := by
  suffices h : ∀ (m : List (Nat × List Nat)),
      m.Pairwise (fun a b => a.1 < b.1) →
      (inserts.foldl (fun m e => litemapInsert e.1 e.2 m) m).Pairwise
        (fun a b => a.1 < b.1) by
    exact h [] (by simp)
  induction inserts with
  | nil => intro m hm; simpa using hm
  | cons e rest ih =>
    intro m hm
    exact ih _ (litemapInsert_pairwise e.1 e.2 m hm)

/-! ## Palette generation (`colorful/build.rs`)

Colors are RGB triples (`[u8; 3]`), modelled as `Nat × Nat × Nat`.
The palette depends on the terminal theme queried at build time
(`Theme::query`), which falls back to the `prettypretty` crate's
`VGA_COLORS` constant when no terminal answers. -/

/-- The inner `convert` helper of `xterm216_to_rgb`: cube level 0 maps
to 0, level `v` to `55 + 40·v`. -/
def convert (value : Nat) : Nat := if value = 0 then 0 else 55 + 40 * value

/-- `xterm216_to_rgb`: RGB of xterm cube index 16..231. -/
def xterm216_to_rgb (idx : Nat) : Nat × Nat × Nat :=
  let b0 := idx - 16
  let r := b0 / 36
  let b1 := b0 - r * 36
  let g := b1 / 6
  let b2 := b1 - g * 6
  (convert r, convert g, convert b2)

/-- `gray_to_rgb`: RGB of gray-ramp index 232..255, level `8 + 10·i`. -/
def gray_to_rgb (idx : Nat) : Nat × Nat × Nat :=
  let i := idx - 232
  let level := 8 + 10 * i
  (level, level, level)

/-- The `prettypretty::theme::VGA_COLORS` fallback theme (an external
crate constant): the standard VGA text-mode palette in ANSI order. -/
def vgaTheme : List (Nat × Nat × Nat) :=
  [(0, 0, 0), (170, 0, 0), (0, 170, 0), (170, 85, 0),
   (0, 0, 170), (170, 0, 170), (0, 170, 170), (170, 170, 170),
   (85, 85, 85), (255, 85, 85), (85, 255, 85), (255, 255, 85),
   (85, 85, 255), (255, 85, 255), (85, 255, 255), (255, 255, 255)]

/-- The VGA fallback theme as a lookup function for indices 0..15. -/
def vgaThemeFn (idx : Nat) : Nat × Nat × Nat := vgaTheme.getD idx (0, 0, 0)

/-- `PALETTE[idx]` as generated by the `main` loop of `build.rs`:
theme colors for 0..15, the xterm cube for 16..231, the gray ramp for
232..255, parameterized by the queried theme. -/
def paletteColor (theme : Nat → Nat × Nat × Nat) (idx : Nat) : Nat × Nat × Nat :=
  if idx ≤ 15 then theme idx
  else if idx ≤ 231 then xterm216_to_rgb idx
  else gray_to_rgb idx

/-- The theme-independent part of the palette (indices 16..255). -/
def highColor (idx : Nat) : Nat × Nat × Nat :=
  if idx ≤ 231 then xterm216_to_rgb idx else gray_to_rgb idx

theorem paletteColor_high (theme : Nat → Nat × Nat × Nat) (idx : Nat)
    (h : 16 ≤ idx) : paletteColor theme idx = highColor idx := by
  unfold paletteColor highColor
  rw [if_neg (by omega)]

/-- `REVERSE_PALETTE` as generated by `build.rs`: a `HashMap` built by
inserting `(PALETTE[idx], idx)` for `idx = 0, 1, …, 255` in order, so a
color appearing more than once keeps the **last** index inserted. -/
def reverse_palette (theme : Nat → Nat × Nat × Nat) (c : Nat × Nat × Nat) :
    Option Nat :=
  ((List.range 256).filter (fun i => decide (paletteColor theme i = c))).getLast?

/-- C4 counterexample: under the VGA fallback theme the palette is not
injective — `PALETTE[0] = (0,0,0) = PALETTE[16]` — and the reverse map
keeps the later index: `REVERSE_PALETTE[PALETTE[0]] = 16 ≠ 0`. -/
theorem reverse_palette_counterexample :
    reverse_palette vgaThemeFn (paletteColor vgaThemeFn 0) = some 16 ∧
      (16 : Nat) ≠ 0 := by
  constructor
  · decide
  · decide

theorem getLast?_filter_range (p : Nat → Bool) (n i : Nat) (hi : i < n)
    (hp : p i = true) (hlater : ∀ j, i < j → j < n → p j = false) :
    ((List.range n).filter p).getLast? = some i := by
  obtain ⟨k, rfl⟩ : ∃ k, n = (i + 1) + k := ⟨n - (i + 1), by omega⟩
  rw [List.range_add, List.filter_append, List.range_succ, List.filter_append]
  have h1 : List.filter p [i] = [i] := by simp [hp]
  have h2 : List.filter p ((List.range k).map (fun j => i + 1 + j)) = [] := by
    rw [List.filter_eq_nil_iff]
    intro a ha
    obtain ⟨j, hj, rfl⟩ := List.mem_map.mp ha
    have hjk : j < k := List.mem_range.mp hj
    simp [hlater (i + 1 + j) (by omega) (by omega)]
  rw [h1, h2, List.append_nil, List.getLast?_concat]

theorem convert_inj (a b : Nat) (h : convert a = convert b) : a = b := by
  unfold convert at h
  split_ifs at h <;> omega

theorem convert_mod10 (a : Nat) : convert a % 10 = 0 ∨ convert a % 10 = 5 := by
  unfold convert
  split_ifs <;> omega

/-- Indices 16..255 of the palette (cube and gray entries) carry
pairwise distinct colors: the cube map and the gray ramp are injective,
and no cube component value is congruent to 8 mod 10 while every gray
level is. -/
theorem highColor_injective (i j : Nat) (hi16 : 16 ≤ i) (hi : i ≤ 255)
    (hj16 : 16 ≤ j) (hj : j ≤ 255) (hne : i ≠ j) :
    highColor i ≠ highColor j := by
  intro heq
  unfold highColor at heq
  by_cases hci : i ≤ 231 <;> by_cases hcj : j ≤ 231
  · rw [if_pos hci, if_pos hcj] at heq
    simp only [xterm216_to_rgb, Prod.mk.injEq] at heq
    obtain ⟨h1, h2, h3⟩ := heq
    have e1 := convert_inj _ _ h1
    have e2 := convert_inj _ _ h2
    have e3 := convert_inj _ _ h3
    omega
  · rw [if_pos hci, if_neg hcj] at heq
    simp only [xterm216_to_rgb, gray_to_rgb, Prod.mk.injEq] at heq
    obtain ⟨h1, _, _⟩ := heq
    rcases convert_mod10 ((i - 16) / 36) with h | h <;> omega
  · rw [if_neg hci, if_pos hcj] at heq
    simp only [xterm216_to_rgb, gray_to_rgb, Prod.mk.injEq] at heq
    obtain ⟨h1, _, _⟩ := heq
    rcases convert_mod10 ((j - 16) / 36) with h | h <;> omega
  · rw [if_neg hci, if_neg hcj] at heq
    simp only [gray_to_rgb, Prod.mk.injEq] at heq
    omega

/-- C4 amended: `REVERSE_PALETTE[PALETTE[i]] == i` holds for every
index `i` in 16..255 under any theme (the cube and gray colors are
pairwise distinct and inserted last), and under the VGA fallback theme
also for `i` in 1..14; it fails exactly at the fallback theme's indices
0 and 15, whose colors `(0,0,0)` and `(255,255,255)` also occur as cube
entries 16 and 231, which the last-wins reverse map prefers. -/
theorem reverse_palette_amended :
    (∀ (theme : Nat → Nat × Nat × Nat) (i : Nat), 16 ≤ i → i ≤ 255 →
        reverse_palette theme (paletteColor theme i) = some i) ∧
    (∀ i < 14, reverse_palette vgaThemeFn
        (paletteColor vgaThemeFn (i + 1)) = some (i + 1)) := by
  constructor
  · intro theme i h16 h255
    unfold reverse_palette
    apply getLast?_filter_range _ _ i (by omega)
    · simp
    · intro j hij hj256
      have hj16 : 16 ≤ j := by omega
      rw [decide_eq_false_iff_not]
      rw [paletteColor_high theme i h16, paletteColor_high theme j hj16]
      exact highColor_injective j i hj16 (by omega) h16 (by omega) (by omega)
  · decide

/-- Witness for the amended C4 at concrete indices (cube index 20 under
an arbitrary-looking theme, VGA index 3). -/
theorem reverse_palette_amended_witness :
    reverse_palette vgaThemeFn (paletteColor vgaThemeFn 20) = some 20 ∧
      reverse_palette vgaThemeFn (paletteColor vgaThemeFn 3) = some 3 :=
  ⟨reverse_palette_amended.1 vgaThemeFn 20 (by decide) (by decide),
   reverse_palette_amended.2 2 (by decide)⟩

/-! ## Frame emitter (`img2ansi/src/lib.rs`)

`to_ansi` is generic over the pixel type via the `AnsiPixel`
capability: `fg_code` / `bg_code` each emit exactly one SGR escape (for
both the RGB and the indexed pixel implementations). The embedding
records the emission stream at that capability boundary as a list of
tokens: one token per SGR write, per half-block glyph write and per
next-line escape write. -/

/-- One write of the half-block frame encoder. -/
inductive AnsiToken (α : Type) where
  | fgCode (p : α)
  | bgCode (p : α)
  | halfBlock
  | nextLine
  deriving DecidableEq

/-- Is this token a foreground SGR? -/
def AnsiToken.isFg {α : Type} : AnsiToken α → Bool
  | .fgCode _ => true
  | _ => false

/-- Is this token a background SGR? -/
def AnsiToken.isBg {α : Type} : AnsiToken α → Bool
  | .bgCode _ => true
  | _ => false

/-- Emitter state: the `last_upper` / `last_lower` locals of `to_ansi`,
`None` at the start of each frame. -/
structure EmitState (α : Type) where
  lastUpper : Option α
  lastLower : Option α

/-- One loop body iteration of `to_ansi`: emit a foreground SGR when
`last_upper.is_none_or(|v| v != upper)`, a background SGR when
`last_lower.is_none_or(|v| v != lower)`, then the half-block glyph;
remember both pixels. -/
def cellTokens {α : Type} [DecidableEq α] (st : EmitState α)
    (upper lower : α) : EmitState α × List (AnsiToken α) :=
  let emitFg : Bool :=
    match st.lastUpper with
    | none => true
    | some v => v != upper
  let emitBg : Bool :=
    match st.lastLower with
    | none => true
    | some v => v != lower
  (⟨some upper, some lower⟩,
    (if emitFg then [.fgCode upper] else []) ++
      (if emitBg then [.bgCode lower] else []) ++ [.halfBlock])

/-- A frame as `to_ansi` consumes it: dimensions plus a pixel accessor
(`GenericImageView::get_pixel`). -/
structure FrameImg (α : Type) where
  width : Nat
  height : Nat
  pixel : Nat → Nat → α

/-- Processing of the cell at column `x` of row pair `(y, y + 1)`. -/
def stepCell {α : Type} [DecidableEq α] (img : FrameImg α) (y : Nat)
    (acc : EmitState α × List (AnsiToken α)) (x : Nat) :
    EmitState α × List (AnsiToken α) :=
  let r := cellTokens acc.1 (img.pixel x y) (img.pixel x (y + 1))
  (r.1, acc.2 ++ r.2)

/-- Processing of one row pair: all cells left to right, then the
`ESC [ 1 E` next-line escape. -/
def stepRow {α : Type} [DecidableEq α] (img : FrameImg α)
    (acc : EmitState α × List (AnsiToken α)) (y : Nat) :
    EmitState α × List (AnsiToken α) :=
  let r := (List.range img.width).foldl (stepCell img y) acc
  (r.1, r.2 ++ [.nextLine])

/-- `ToAnsi::to_ansi`: iterate `y` over `(0..height - 1).step_by(2)`
(the upper rows of the pairs) with the suppression state initialized
once for the whole frame. -/
def to_ansi {α : Type} [DecidableEq α] (img : FrameImg α) :
    List (AnsiToken α) :=
  ((List.range' 0 ((img.height - 1 + 1) / 2) 2).foldl (stepRow img)
    (⟨none, none⟩, [])).2

/-- A frame all of whose pixels are the color `c`. -/
def uniformImg {α : Type} (c : α) (w h : Nat) : FrameImg α :=
  ⟨w, h, fun _ _ => c⟩

theorem countP_replicate_eq_zero {β : Type} (p : β → Bool) (n : Nat) (a : β)
    (h : p a = false) : (List.replicate n a).countP p = 0 := by
  induction n with
  | zero => rfl
  | succ n ih => simp [List.replicate_succ, List.countP_cons, h, ih]

theorem stepCell_uniform {α : Type} [DecidableEq α] (c : α) (w h y x : Nat)
    (out : List (AnsiToken α)) :
    stepCell (uniformImg c w h) y (⟨some c, some c⟩, out) x =
      (⟨some c, some c⟩, out ++ [.halfBlock]) := by
  simp [stepCell, cellTokens, uniformImg]

theorem foldl_cells_uniform {α : Type} [DecidableEq α] (c : α) (w h y : Nat)
    (xs : List Nat) (out : List (AnsiToken α)) :
    xs.foldl (stepCell (uniformImg c w h) y) (⟨some c, some c⟩, out) =
      (⟨some c, some c⟩, out ++ List.replicate xs.length .halfBlock) := by
  induction xs generalizing out with
  | nil => simp
  | cons x xs ih =>
    simp only [List.foldl_cons, stepCell_uniform, ih, List.length_cons]
    simp [List.append_assoc, List.replicate_succ, List.singleton_append]

theorem stepRow_uniform {α : Type} [DecidableEq α] (c : α) (w h y : Nat)
    (out : List (AnsiToken α)) :
    stepRow (uniformImg c w h) (⟨some c, some c⟩, out) y =
      (⟨some c, some c⟩,
        (out ++ List.replicate w .halfBlock) ++ [.nextLine]) := by
  unfold stepRow
  rw [show (uniformImg c w h).width = w from rfl, foldl_cells_uniform]
  simp

theorem foldl_rows_uniform {α : Type} [DecidableEq α] (c : α) (w h : Nat)
    (ys : List Nat) (out : List (AnsiToken α)) :
    ((ys.foldl (stepRow (uniformImg c w h)) (⟨some c, some c⟩, out)).2.countP
        AnsiToken.isFg = out.countP AnsiToken.isFg) ∧
    ((ys.foldl (stepRow (uniformImg c w h)) (⟨some c, some c⟩, out)).2.countP
        AnsiToken.isBg = out.countP AnsiToken.isBg) := by
  induction ys generalizing out with
  | nil => exact ⟨rfl, rfl⟩
  | cons y ys ih =>
    simp only [List.foldl_cons, stepRow_uniform]
    obtain ⟨ih1, ih2⟩ := ih ((out ++ List.replicate w .halfBlock) ++ [.nextLine])
    refine ⟨?_, ?_⟩
    · rw [ih1]
      simp [List.countP_append,
        countP_replicate_eq_zero AnsiToken.isFg w AnsiToken.halfBlock rfl,
        AnsiToken.isFg]
    · rw [ih2]
      simp [List.countP_append,
        countP_replicate_eq_zero AnsiToken.isBg w AnsiToken.halfBlock rfl,
        AnsiToken.isBg]

/-- C5: the ANSI stream of a uniform single-color frame of width ≥ 1
and height ≥ 2 contains exactly one foreground SGR and exactly one
background SGR — emitted at the first cell; every later cell, including
cells across row-pair boundaries, is suppressed because the suppression
state is reset only at the start of the frame. -/
theorem uniform_frame_single_sgr {α : Type} [DecidableEq α] (c : α)
    (w h : Nat) (hw : 1 ≤ w) (hh : 2 ≤ h) :
    (to_ansi (uniformImg c w h)).countP AnsiToken.isFg = 1 ∧
    (to_ansi (uniformImg c w h)).countP AnsiToken.isBg = 1 := by
  obtain ⟨v, rfl⟩ : ∃ v, w = v + 1 := ⟨w - 1, by omega⟩
  obtain ⟨k, hk⟩ : ∃ k, (h - 1 + 1) / 2 = k + 1 :=
    ⟨(h - 1 + 1) / 2 - 1, by omega⟩
  have hrow0 : stepRow (uniformImg c (v + 1) h) (⟨none, none⟩, []) 0 =
      (⟨some c, some c⟩,
        ([.fgCode c, .bgCode c, .halfBlock] ++ List.replicate v .halfBlock) ++
          [.nextLine]) := by
    unfold stepRow
    rw [show (uniformImg c (v + 1) h).width = v + 1 from rfl,
      List.range_succ_eq_map, List.foldl_cons]
    have hfirst : stepCell (uniformImg c (v + 1) h) 0 (⟨none, none⟩, []) 0 =
        (⟨some c, some c⟩, [.fgCode c, .bgCode c, .halfBlock]) := by
      simp [stepCell, cellTokens, uniformImg]
    rw [hfirst, foldl_cells_uniform]
    simp
  unfold to_ansi
  rw [show (uniformImg c (v + 1) h).height = h from rfl, hk,
    show List.range' 0 (k + 1) 2 = 0 :: List.range' 2 k 2 from rfl,
    List.foldl_cons, hrow0]
  obtain ⟨hfg, hbg⟩ := foldl_rows_uniform c (v + 1) h (List.range' 2 k 2)
    (([.fgCode c, .bgCode c, .halfBlock] ++ List.replicate v .halfBlock) ++
      [.nextLine])
  refine ⟨?_, ?_⟩
  · rw [hfg]
    simp [List.countP_append, List.countP_cons,
      countP_replicate_eq_zero AnsiToken.isFg v AnsiToken.halfBlock rfl,
      AnsiToken.isFg]
  · rw [hbg]
    simp [List.countP_append, List.countP_cons,
      countP_replicate_eq_zero AnsiToken.isBg v AnsiToken.halfBlock rfl,
      AnsiToken.isBg]

/-- Witness for C5: a 3×4 uniform frame (two row pairs) over indexed
pixels emits one foreground and one background SGR in total. -/
theorem uniform_frame_single_sgr_witness :
    (to_ansi (uniformImg (7 : Nat) 3 4)).countP AnsiToken.isFg = 1 ∧
    (to_ansi (uniformImg (7 : Nat) 3 4)).countP AnsiToken.isBg = 1 :=
  uniform_frame_single_sgr 7 3 4 (by decide) (by decide)

/-! ## Seek-table sampling (`encoder/src/encoders/mod.rs`) -/

/-- `u64` wrapping subtraction, the release-mode result of `a - b` on
`u64` operands. -/
def wrapSub64 (a b : Nat) : Nat := (a % 2 ^ 64 + 2 ^ 64 - b % 2 ^ 64) % 2 ^ 64

/-- `encoder::encoders::SeekTableEncoder`. -/
structure SeekTableEncoder where
  stream_index : Nat
  resolution : Nat
  last_recorded : Nat
  entries : List SeekEntry

/-- `SeekTableEncoder::new`: resolution 100 ms, `last_recorded`
defaulted to 0, no entries. -/
def SeekTableEncoder.new (stream_index : Nat) : SeekTableEncoder :=
  { stream_index, resolution := 100, last_recorded := 0, entries := [] }

/-- `SeekTableEncoder::ingest`: push an entry when the packet's
millisecond timestamp is zero or exceeds `last_recorded` by at least
`resolution` (`as_millis() as u64 - last_recorded` wraps on `u64`).
The recorded entry carries `as_micros() as i64` and `position as i64`. -/
def SeekTableEncoder.ingest (st : SeekTableEncoder) (packet : Packet)
    (position : Nat) : SeekTableEncoder :=
  let ms := packet.timestamp / 1000000
  if ms = 0 ∨ st.resolution ≤ wrapSub64 ms st.last_recorded then
    { st with
      entries := st.entries ++
        [⟨wrap64 ((packet.timestamp / 1000 : Nat) : Int),
          wrap64 (position : Int)⟩],
      last_recorded := ms % 2 ^ 64 }
  else st

/-- A packet used only for its timestamp in sampling examples. -/
def packetAt (ns : Nat) : Packet :=
  { stream := 0, packet_idx := 1, timestamp := ns, duration := 0,
    side_data := ⟨[]⟩, data_type := .video, data_len := 0 }

/-- C6 counterexample: a stream's first packet with timestamp 50 ms is
**not** recorded — `as_millis()` is 50, which is neither 0 nor at least
the 100 ms resolution beyond `last_recorded = 0` — so the claim that the
first packet is always recorded regardless of its timestamp fails. -/
theorem seekTable_first_packet_not_recorded :
    ((SeekTableEncoder.new 0).ingest (packetAt 50000000) 0).entries = [] := by
  decide

/-- C6 amended: `ingest` appends an entry exactly when the packet's
millisecond timestamp is 0 or at least `resolution` beyond
`last_recorded`; in particular a stream's first packet (fresh encoder,
`last_recorded = 0`, default resolution 100) is recorded iff its
timestamp is below 1 ms or at least 100 ms. -/
theorem seekTable_first_packet_iff (i : Nat) (p : Packet) (pos : Nat)
    (hms : p.timestamp / 1000000 < 2 ^ 64) :
    ((SeekTableEncoder.new i).ingest p pos).entries =
      (if p.timestamp / 1000000 = 0 ∨ 100 ≤ p.timestamp / 1000000 then
        [⟨wrap64 ((p.timestamp / 1000 : Nat) : Int), wrap64 (pos : Int)⟩]
      else []) := by
  unfold SeekTableEncoder.new SeekTableEncoder.ingest
  have hsub : wrapSub64 (p.timestamp / 1000000) 0 = p.timestamp / 1000000 := by
    unfold wrapSub64
    omega
  simp only [hsub]
  split_ifs <;> simp_all

/-- Witness for the amended C6: a first packet at 250 ms is recorded,
one at 50 ms is not. -/
theorem seekTable_first_packet_iff_witness :
    ((SeekTableEncoder.new 0).ingest (packetAt 250000000) 4096).entries =
      [⟨250000, 4096⟩] ∧
    ((SeekTableEncoder.new 0).ingest (packetAt 50000000) 0).entries = [] := by
  constructor
  · have h := seekTable_first_packet_iff 0 (packetAt 250000000) 4096 (by decide)
    rw [h]
    decide
  · have h := seekTable_first_packet_iff 0 (packetAt 50000000) 0 (by decide)
    rw [h]
    decide

/-! ## Packet index assignment (`encoder/src/main.rs`) -/

/-- The `ANSIEncoder` bookkeeping relevant to packet indices: the
`stream_packet_idx` map (`LiteMap<u8, u64>`; a missing key is modelled
as 0, which never collides with stored counters since those are always
at least 1) and the `(stream, packet_idx)` pairs of the packets written
so far, in write order. -/
structure EncState where
  stream_packet_idx : Nat → Nat
  written : List (Nat × Nat)

/-- A fresh `ANSIEncoder`: empty index map, nothing written. -/
def EncState.initial : EncState := ⟨fun _ => 0, []⟩

/-- `ANSIEncoder::process_packet`, restricted to index bookkeeping: a
packet whose stream has no registered pipeline is skipped (early
return); otherwise `stream_packet_idx.entry(stream).or_insert(1)` is
the index assigned to the packet, and the stored counter is then
incremented. -/
def process_packet (encoders : Nat → Bool) (st : EncState) (stream : Nat) :
    EncState :=
  if encoders stream then
    let current := st.stream_packet_idx stream
    let index := if current = 0 then 1 else current
    { stream_packet_idx := fun s =>
        if s = stream then index + 1 else st.stream_packet_idx s,
      written := st.written ++ [(stream, index)] }
  else st

/-- Runs the encoder over a whole sequence of input packet streams. -/
def process_all (encoders : Nat → Bool) (inputs : List Nat) : EncState :=
  inputs.foldl (process_packet encoders) EncState.initial

/-- The packet indices assigned to stream `s`, in write order. -/
def writtenIdx (st : EncState) (s : Nat) : List Nat :=
  (st.written.filter (fun e => decide (e.1 = s))).map Prod.snd

/-- The invariant tying the stored counter to the number of packets
written per stream: `k` packets written so far, counter absent (0) when
`k = 0` and `k + 1` otherwise. -/
def EncInv (st : EncState) : Prop :=
  ∀ s, ∃ k, writtenIdx st s = List.range' 1 k ∧
    st.stream_packet_idx s = (if k = 0 then 0 else k + 1)

theorem process_packet_inv (encoders : Nat → Bool) (st : EncState)
    (stream : Nat) (h : EncInv st) :
    EncInv (process_packet encoders st stream) := by
  unfold process_packet
  by_cases hreg : encoders stream
  · rw [if_pos hreg]
    intro s
    obtain ⟨k, g1, g2⟩ := h s
    by_cases hs : s = stream
    · subst hs
      refine ⟨k + 1, ?_, ?_⟩
      · unfold writtenIdx at *
        have hidx : (if st.stream_packet_idx s = 0 then 1
            else st.stream_packet_idx s) = k + 1 := by
          rw [g2]
          cases k with
          | zero => simp
          | succ m => simp
        simp [g1, hidx, List.range'_1_concat, Nat.add_comm 1 k]
      · simp only [if_pos rfl]
        have hidx : (if st.stream_packet_idx s = 0 then 1
            else st.stream_packet_idx s) = k + 1 := by
          rw [g2]
          cases k with
          | zero => simp
          | succ m => simp
        rw [hidx]
        simp
    · refine ⟨k, ?_, ?_⟩
      · unfold writtenIdx at *
        simp only [List.filter_append, List.map_append]
        rw [g1]
        have hfil : List.filter (fun e => decide (e.1 = s))
            [(stream, if st.stream_packet_idx stream = 0 then 1
              else st.stream_packet_idx stream)] = [] := by
          simp [Ne.symm hs]
        rw [hfil]
        simp
      · dsimp only
        rw [if_neg hs]
        exact g2
  · rw [if_neg hreg]
    exact h

/-- C7: within each stream the container writer assigns consecutive
packet indices starting at 1: for every input sequence and every set of
registered stream pipelines, the indices written for stream `s` are
exactly `1, 2, …, k` where `k` is the number of packets written for `s`. -/
theorem packet_idx_consecutive (encoders : Nat → Bool) (inputs : List Nat)
    (s : Nat) :
    writtenIdx (process_all encoders inputs) s =
      List.range' 1 (writtenIdx (process_all encoders inputs) s).length := by
  have hinv : EncInv (process_all encoders inputs) := by
    unfold process_all
    have hstart : EncInv EncState.initial := fun s => ⟨0, rfl, rfl⟩
    induction inputs using List.reverseRecOn with
    | nil => exact hstart
    | append_singleton xs x ih =>
      rw [List.foldl_append, List.foldl_cons, List.foldl_nil]
      exact process_packet_inv encoders _ x ih
  obtain ⟨k, g1, _⟩ := hinv s
  rw [g1, List.length_range']

/-! ## Per-stream decompression (`player/src/processors.rs`) -/

/-- `u64::from_le_bytes` applied after `try_into: [u8; 8]`: defined
only on an exactly-8-byte value. -/
def u64FromLeBytes : List Nat → Option Nat
  | [b0, b1, b2, b3, b4, b5, b6, b7] =>
    some (b0 + 256 * (b1 + 256 * (b2 + 256 * (b3 + 256 *
      (b4 + 256 * (b5 + 256 * (b6 + 256 * b7)))))))
  | _ => none

/-- `Lz4Decoder::process`, parameterized by the `lz4_flex` block
decompressor (an external crate): given the compressed bytes and the
output-buffer size it fills the scratch buffer or errors. The result
pairs the outcome (`none` models the `io::Error` early return) with the
final content of the payload buffer `data`. -/
def Lz4Decoder.process (decompress : List Nat → Nat → Option (List Nat))
    (packet : Packet) (data : List Nat) : Option Unit × List Nat :=
  match (litemapGet DECOMPRESSED_LEN packet.side_data.inner).bind u64FromLeBytes with
  | none => (none, data)
  | some n =>
    match decompress data n with
    | none => (none, data)
    | some out => (some (), out)

/-- `ZstdDecoder::process`, parameterized by the `zstd` bulk
decompressor (an external crate); same shape as the LZ4 path: read
`DCLE`, decompress into scratch, replace `data`. -/
def ZstdDecoder.process (decompress : List Nat → Nat → Option (List Nat))
    (packet : Packet) (data : List Nat) : Option Unit × List Nat :=
  match (litemapGet DECOMPRESSED_LEN packet.side_data.inner).bind u64FromLeBytes with
  | none => (none, data)
  | some n =>
    match decompress data n with
    | none => (none, data)
    | some out => (some (), out)

/-- C8: for both per-stream decompressors, a packet whose side data
lacks the `DCLE` tag fails to decode and leaves the payload buffer
unchanged; when `DCLE` is present as an 8-byte value and decompression
succeeds, the payload is replaced by the decompressed bytes. -/
theorem decoder_dcle_required
    (dec4 decZ : List Nat → Nat → Option (List Nat)) (p : Packet)
    (data : List Nat) :
    (litemapGet DECOMPRESSED_LEN p.side_data.inner = none →
      Lz4Decoder.process dec4 p data = (none, data) ∧
      ZstdDecoder.process decZ p data = (none, data)) ∧
    (∀ v n out, litemapGet DECOMPRESSED_LEN p.side_data.inner = some v →
      u64FromLeBytes v = some n → dec4 data n = some out →
      Lz4Decoder.process dec4 p data = (some (), out)) ∧
    (∀ v n out, litemapGet DECOMPRESSED_LEN p.side_data.inner = some v →
      u64FromLeBytes v = some n → decZ data n = some out →
      ZstdDecoder.process decZ p data = (some (), out)) := by
  refine ⟨?_, ?_, ?_⟩
  · intro h
    unfold Lz4Decoder.process ZstdDecoder.process
    simp [h]
  · intro v n out hv hn hdec
    unfold Lz4Decoder.process
    simp only [hv, Option.some_bind, hn, hdec]
  · intro v n out hv hn hdec
    unfold ZstdDecoder.process
    simp only [hv, Option.some_bind, hn, hdec]

/-- Witness for C8: a packet without `DCLE` fails both decoders with
the payload intact; one carrying `DCLE = 2` (8 bytes LE) gets its
payload replaced by the decompressed bytes of a sample decompressor. -/
theorem decoder_dcle_required_witness :
    (Lz4Decoder.process (fun _ n => some (List.replicate n 0))
        (packetAt 0) [5] = (none, [5]) ∧
      ZstdDecoder.process (fun _ n => some (List.replicate n 0))
        (packetAt 0) [5] = (none, [5])) ∧
    Lz4Decoder.process (fun _ n => some (List.replicate n 0))
        { packetAt 0 with
          side_data := ⟨[(DECOMPRESSED_LEN, [2, 0, 0, 0, 0, 0, 0, 0])]⟩ }
        [9, 9, 9] = (some (), List.replicate 2 0) ∧
    ZstdDecoder.process (fun _ n => some (List.replicate n 0))
        { packetAt 0 with
          side_data := ⟨[(DECOMPRESSED_LEN, [2, 0, 0, 0, 0, 0, 0, 0])]⟩ }
        [9, 9, 9] = (some (), List.replicate 2 0) :=
  ⟨(decoder_dcle_required (fun _ n => some (List.replicate n 0))
      (fun _ n => some (List.replicate n 0)) (packetAt 0) [5]).1 (by decide),
   (decoder_dcle_required (fun _ n => some (List.replicate n 0))
      (fun _ n => some (List.replicate n 0))
      { packetAt 0 with
        side_data := ⟨[(DECOMPRESSED_LEN, [2, 0, 0, 0, 0, 0, 0, 0])]⟩ }
      [9, 9, 9]).2.1 [2, 0, 0, 0, 0, 0, 0, 0] 2 (List.replicate 2 0)
      (by decide) (by decide) rfl,
   (decoder_dcle_required (fun _ n => some (List.replicate n 0))
      (fun _ n => some (List.replicate n 0))
      { packetAt 0 with
        side_data := ⟨[(DECOMPRESSED_LEN, [2, 0, 0, 0, 0, 0, 0, 0])]⟩ }
      [9, 9, 9]).2.2 [2, 0, 0, 0, 0, 0, 0, 0] 2 (List.replicate 2 0)
      (by decide) (by decide) rfl⟩

/-! ## Reader seek (`player/src/lib.rs`) -/

/-- The loop of Rust's `slice::binary_search_by_key` over the `ts` keys
of the seek table: halve the interval `[left, right)` on the probed
midpoint until it is empty (`Err(left)`, the insertion point) or the
key matches (`Ok(mid)`). `fuel` bounds the iteration count purely for
termination; every call supplies `fuel ≥ right - left`, which the loop
never exhausts since the interval shrinks each round. -/
def bsGo (keys : List Int) (target : Int) : Nat → Nat → Nat → Nat ⊕ Nat
  | 0, left, _ => .inr left
  | fuel + 1, left, right =>
    if left < right then
      let size := right - left
      let mid := left + size / 2
      let k := keys.getD mid 0
      if k < target then bsGo keys target fuel (mid + 1) right
      else if target < k then bsGo keys target fuel left mid
      else .inl mid
    else .inr left

/-- `seektable.binary_search_by_key(&time, |v| v.ts)`. -/
def binary_search_by_key (keys : List Int) (target : Int) : Nat ⊕ Nat :=
  bsGo keys target keys.length 0 keys.length

/-- The `u64` bit pattern of an `i64` value (`x as u64`). -/
def u64OfInt (x : Int) : Nat := (x % 2 ^ 64).toNat

/-- `Reader::seek`: binary-search the seek table by `ts`, take the found
index on a hit and the **insertion point** on a miss, index the table
there, seek the byte reader to `entry.location as u64 + start_of_packets`
and return `entry.ts`. The result pairs the returned timestamp with the
new reader position; `none` models the out-of-bounds panic of
`self.seektable[entry]` when the insertion point equals the table
length. -/
def Reader.seek (seektable : List SeekEntry) (start_of_packets : Nat)
    (time : Int) : Option (Int × Nat) :=
  let idx :=
    match binary_search_by_key (seektable.map SeekEntry.ts) time with
    | .inl i => i
    | .inr i => i
  match seektable[idx]? with
  | some entry =>
    some (entry.ts, (u64OfInt entry.location + start_of_packets) % 2 ^ 64)
  | none => none

theorem bsGo_spec (keys : List Int) (target : Int)
    (hsort : ∀ i j, i < j → j < keys.length →
      keys.getD i 0 < keys.getD j 0) :
    ∀ fuel left right, right ≤ keys.length → left ≤ right →
      right - left ≤ fuel →
      (∀ i, i < left → keys.getD i 0 < target) →
      (∀ i, right ≤ i → i < keys.length → target < keys.getD i 0) →
      (∀ m, bsGo keys target fuel left right = .inl m →
        m < keys.length ∧ keys.getD m 0 = target) ∧
      (∀ j, bsGo keys target fuel left right = .inr j →
        j ≤ keys.length ∧ (∀ i, i < j → keys.getD i 0 < target) ∧
        (∀ i, j ≤ i → i < keys.length → target < keys.getD i 0)) := by
  intro fuel
  induction fuel with
  | zero =>
    intro left right hrlen hlr hfuel hlo hhi
    have heq : left = right := by omega
    subst heq
    refine ⟨?_, ?_⟩
    · intro m hm
      simp only [bsGo] at hm
      exact Sum.noConfusion hm
    · intro j hj
      simp only [bsGo, Sum.inr.injEq] at hj
      subst hj
      exact ⟨by omega, hlo, hhi⟩
  | succ fuel ih =>
    intro left right hrlen hlr hfuel hlo hhi
    by_cases hcase : left < right
    · have hmidlt : left + (right - left) / 2 < right := by omega
      have hmidlen : left + (right - left) / 2 < keys.length := by omega
      by_cases hlt : keys.getD (left + (right - left) / 2) 0 < target
      · have hrec := ih (left + (right - left) / 2 + 1) right hrlen
          (by omega) (by omega)
          (by
            intro i hi
            by_cases hil : i < left + (right - left) / 2
            · calc keys.getD i 0 < keys.getD (left + (right - left) / 2) 0 :=
                    hsort _ _ hil hmidlen
                _ < target := hlt
            · have : i = left + (right - left) / 2 := by omega
              subst this
              exact hlt)
          hhi
        simp only [bsGo, if_pos hcase, if_pos hlt]
        exact hrec
      · by_cases hgt : target < keys.getD (left + (right - left) / 2) 0
        · have hrec := ih left (left + (right - left) / 2) (by omega)
            (by omega) (by omega) hlo
            (by
              intro i hi hilen
              by_cases him : left + (right - left) / 2 < i
              · calc target < keys.getD (left + (right - left) / 2) 0 := hgt
                  _ < keys.getD i 0 := hsort _ _ him hilen
              · have : i = left + (right - left) / 2 := by omega
                subst this
                exact hgt)
          simp only [bsGo, if_pos hcase, if_neg hlt, if_pos hgt]
          exact hrec
        · have heqk : keys.getD (left + (right - left) / 2) 0 = target := by
            omega
          refine ⟨?_, ?_⟩
          · intro m hm
            simp only [bsGo, if_pos hcase, if_neg hlt, if_neg hgt,
              Sum.inl.injEq] at hm
            subst hm
            exact ⟨hmidlen, heqk⟩
          · intro j hj
            simp only [bsGo, if_pos hcase, if_neg hlt, if_neg hgt] at hj
            exact Sum.noConfusion hj
    · have heq : left = right := by omega
      subst heq
      refine ⟨?_, ?_⟩
      · intro m hm
        simp only [bsGo, if_neg hcase] at hm
        exact Sum.noConfusion hm
      · intro j hj
        simp only [bsGo, if_neg hcase, Sum.inr.injEq] at hj
        subst hj
        exact ⟨by omega, hlo, hhi⟩

theorem seektable_keys_sorted (tbl : List SeekEntry)
    (hsort : tbl.Pairwise (fun a b => a.ts < b.ts)) :
    ∀ i j, i < j → j < (tbl.map SeekEntry.ts).length →
      (tbl.map SeekEntry.ts).getD i 0 < (tbl.map SeekEntry.ts).getD j 0 := by
  intro i j hij hj
  have hj' : j < tbl.length := by simpa using hj
  have hi' : i < tbl.length := by omega
  have hi : i < (tbl.map SeekEntry.ts).length := by simpa using hi'
  rw [List.getD_eq_getElem?_getD, List.getD_eq_getElem?_getD,
    List.getElem?_eq_getElem hi, List.getElem?_eq_getElem hj,
    Option.getD_some, Option.getD_some]
  simp only [List.getElem_map]
  exact List.pairwise_iff_getElem.mp hsort i j hi' hj' hij

/-- C10: for a nonempty sorted seek table, a requested time strictly
beyond the last entry's `ts` drives the binary search to the insertion
point `table.length`, and indexing the table there panics
(out-of-bounds) instead of returning the last entry; `seek` returns
normally only when some entry has `ts ≥ t`. -/
theorem seek_panics_beyond_last (tbl : List SeekEntry) (start : Nat)
    (t : Int) (hne : tbl ≠ [])
    (hsort : tbl.Pairwise (fun a b => a.ts < b.ts)) :
    ((tbl.getLast hne).ts < t →
      binary_search_by_key (tbl.map SeekEntry.ts) t = .inr tbl.length ∧
      Reader.seek tbl start t = none) ∧
    (∀ r, Reader.seek tbl start t = some r → ∃ e ∈ tbl, t ≤ e.ts) := by
  have hlen : (tbl.map SeekEntry.ts).length = tbl.length := by simp
  have hspec := bsGo_spec (tbl.map SeekEntry.ts) t
    (seektable_keys_sorted tbl hsort) (tbl.map SeekEntry.ts).length 0
    (tbl.map SeekEntry.ts).length
    (le_refl _) (by omega) (by omega) (by intro i hi; omega)
    (by intro i hi hlen'; omega)
  have hkey : ∀ (i : Nat) (h : i < tbl.length),
      (tbl.map SeekEntry.ts).getD i 0 = tbl[i].ts := by
    intro i h
    have hi' : i < (tbl.map SeekEntry.ts).length := by omega
    rw [List.getD_eq_getElem?_getD, List.getElem?_eq_getElem hi',
      Option.getD_some]
    simp
  have hne' : tbl.length - 1 < tbl.length := by
    cases tbl with
    | nil => exact absurd rfl hne
    | cons a l => simp
  constructor
  · intro hlast
    have hlast' : (tbl.getLast hne).ts = tbl[tbl.length - 1].ts := by
      rw [List.getLast_eq_getElem]
    have hall : ∀ i, i < tbl.length → (tbl.map SeekEntry.ts).getD i 0 < t := by
      intro i hi
      by_cases hi1 : i < tbl.length - 1
      · have hlt := seektable_keys_sorted tbl hsort i (tbl.length - 1) hi1
          (by omega)
        rw [hkey (tbl.length - 1) hne'] at hlt
        have hlt2 : tbl[tbl.length - 1].ts < t := by
          rw [← hlast']
          exact hlast
        omega
      · have : i = tbl.length - 1 := by omega
        subst this
        rw [hkey _ hne']
        rw [← hlast']
        exact hlast
    have hres : binary_search_by_key (tbl.map SeekEntry.ts) t = .inr tbl.length := by
      unfold binary_search_by_key
      rcases hcase : bsGo (tbl.map SeekEntry.ts) t (tbl.map SeekEntry.ts).length 0
          (tbl.map SeekEntry.ts).length with m | j
      · obtain ⟨hm, hmeq⟩ := hspec.1 m hcase
        have := hall m (by omega)
        omega
      · obtain ⟨hj, _, hj2⟩ := hspec.2 j hcase
        have hjlen : j = tbl.length := by
          rw [hlen] at hj
          by_contra hc
          have hjlt : j < tbl.length := by omega
          have h1 := hj2 j (le_refl _) (by omega)
          have h2 := hall j hjlt
          omega
        rw [hjlen]
    refine ⟨hres, ?_⟩
    have hnone : tbl[tbl.length]? = none := List.getElem?_eq_none (le_refl _)
    simp only [Reader.seek, hres, hnone]
  · intro r hr
    rcases hcase : binary_search_by_key (tbl.map SeekEntry.ts) t with m | j
    · obtain ⟨hm, hmeq⟩ := hspec.1 m hcase
      have hmlen : m < tbl.length := by omega
      refine ⟨tbl[m], List.getElem_mem hmlen, ?_⟩
      have := hkey m hmlen
      omega
    · obtain ⟨hj, _, hj2⟩ := hspec.2 j hcase
      simp only [Reader.seek, hcase] at hr
      rcases hentry : tbl[j]? with _ | e
      · rw [hentry] at hr
        cases hr
      · obtain ⟨hjlt, hel⟩ := List.getElem?_eq_some_iff.mp hentry
        have hts := hj2 j (le_refl _) (by omega)
        refine ⟨e, List.getElem?_mem hentry, ?_⟩
        have hk := hkey j hjlt
        rw [hel] at hk
        omega

/-- Witness for C10: seeking to 250 000 µs in a table whose last entry
has ts 200 000 panics (out of bounds). -/
theorem seek_panics_beyond_last_witness :
    Reader.seek [⟨0, 0⟩, ⟨100000, 2048⟩, ⟨200000, 4096⟩] 0 250000 = none :=
  ((seek_panics_beyond_last [⟨0, 0⟩, ⟨100000, 2048⟩, ⟨200000, 4096⟩] 0 250000
      (by decide) (by decide)).1 (by decide)).2

/-- C1: at the spec's own seek scenario — table
`[(0,0), (100000,2048), (200000,4096)]`, `seek(150000)` — the code
returns the entry **after** the requested time (`ts = 200000`,
position `4096`) instead of the greatest entry with `ts ≤ t`
(`ts = 100000`, position `2048`): on a binary-search miss the insertion
point indexes the first entry greater than `t`. -/
theorem seek_selects_upper_entry :
    Reader.seek [⟨0, 0⟩, ⟨100000, 2048⟩, ⟨200000, 4096⟩] 0 150000 =
      some (200000, 4096) ∧ ¬ ((200000 : Int) ≤ 150000) := by
  constructor
  · decide
  · decide

end AnsiThree
